import Mathlib

/-!
Shallow embedding of the cut-calc repository's core computation.

The repository has two source files, each exporting a cut-plan calculator:

* `src/app/page.tsx` — the kerf- and unit-aware calculator
  (`calculateOptimalCutPlan` plus `convertToMm` / `convertFromMm` /
  `getKerfInMm` and the `unitConversions` table), embedded below in
  namespace `CutCalc.Page`;
* `src/components/aluminum-extrusion-calculator.tsx` — the plain
  (kerf-free, unit-free) calculator, embedded in namespace
  `CutCalc.Component`.

JavaScript numbers are modelled as exact rationals (`ℚ`); quantities are
`ℕ`. The JS `Array.prototype.sort` is stable (ES2019), so it is modelled
by `List.mergeSort` with the comparator of the source
(`(a, b) => b.length - a.length`, i.e. "a may precede b iff
b.length ≤ a.length"). The two nested `while`/`for` loops of the
allocator are modelled by structural recursion: the inner `while` on the
quantity counter, the outer `while` on the number of bars still to open.
-/

set_option allowUnsafeReducibility true

attribute [local semireducible] Rat.ofScientific Rat.mul Rat.inv Rat.add Rat.sub

namespace CutCalc

/-- `interface Cut { length: number; quantity: number }` (identical in both
source files). -/
structure Cut where
  length : ℚ
  quantity : ℕ
deriving DecidableEq

/-- `interface CutPlan { cuts: number[]; waste: number }` (identical in both
source files). -/
structure CutPlan where
  cuts : List ℚ
  waste : ℚ
deriving DecidableEq

/-- `type Unit = "mm" | "cm" | "m" | "in" | "ft" | "yd"` from page.tsx
(`in` is a Lean keyword, so that constructor is named `inch`). -/
inductive Unit where
  | mm
  | cm
  | m
  | inch
  | ft
  | yd
deriving DecidableEq

/-- The `unitConversions` table of page.tsx (factors to millimetres). -/
def unitConversions : Unit → ℚ
  | .mm => 1
  | .cm => 10
  | .m => 1000
  | .inch => 25.4
  | .ft => 304.8
  | .yd => 914.4

/-- The comparator `(a, b) => b.length - a.length` of both source files:
`a` may precede `b` exactly when `b.length ≤ a.length` (descending,
stable for ties). -/
def cutLE (a b : Cut) : Bool := decide (b.length ≤ a.length)

namespace Page

/-- `convertToMm` from page.tsx: multiply by the unit's factor. -/
def convertToMm (unit : Unit) (value : ℚ) : ℚ :=
  value * unitConversions unit

/-- `convertFromMm` from page.tsx: divide by the unit's factor. -/
def convertFromMm (unit : Unit) (value : ℚ) : ℚ :=
  value / unitConversions unit

/-- `getKerfInMm` from page.tsx. -/
def getKerfInMm (kerfWidth : ℚ) (kerfUnit : Unit) : ℚ :=
  kerfWidth * unitConversions kerfUnit

/-- The inner loop of `calculateOptimalCutPlan` (page.tsx lines 86-90):
`while (cut.quantity > 0 && remainingLength >= cut.length)` push
`cut.length - kerfWidthMm`, subtract `cut.length` from the remaining
length, decrement the quantity. Here `cutLength` is the entry's
(effective) `length` field. Returns (pushed cuts, remaining length,
remaining quantity). -/
def placeOne (kerfWidthMm remainingLength cutLength : ℚ) : ℕ → List ℚ × ℚ × ℕ
  | 0 => ([], remainingLength, 0)
  | q + 1 =>
    if cutLength ≤ remainingLength then
      let r := placeOne kerfWidthMm (remainingLength - cutLength) cutLength q
      ((cutLength - kerfWidthMm) :: r.1, r.2.1, r.2.2)
    else
      ([], remainingLength, q + 1)

/-- The `for (const cut of remainingCuts)` loop of page.tsx (lines 85-91):
scan the working list in order, running `placeOne` for each entry.
Returns (cuts pushed this bar, remaining length, updated working list). -/
def fillBar (kerfWidthMm : ℚ) : ℚ → List Cut → List ℚ × ℚ × List Cut
  | remainingLength, [] => ([], remainingLength, [])
  | remainingLength, cut :: rest =>
    let p := placeOne kerfWidthMm remainingLength cut.length cut.quantity
    let f := fillBar kerfWidthMm p.2.1 rest
    (p.1 ++ f.1, f.2.1, ⟨cut.length, p.2.2⟩ :: f.2.2)

/-- The two `while` loops over `currentExtrusionIndex` of page.tsx
(lines 78-107): while bars remain and some quantity is positive, fill a
bar; then pad with empty plans (`cuts = []`, `waste = stockLength`) up to
`numExtrusions`. The argument is the number of bars still to open. -/
def allocate (stockLength kerfWidthMm : ℚ) : ℕ → List Cut → List CutPlan
  | 0, _ => []
  | n + 1, remainingCuts =>
    if remainingCuts.any (fun cut => decide (0 < cut.quantity)) then
      let b := fillBar kerfWidthMm stockLength remainingCuts
      ⟨b.1, b.2.1⟩ :: allocate stockLength kerfWidthMm n b.2.2
    else
      List.replicate (n + 1) ⟨[], stockLength⟩

/-- `calculateOptimalCutPlan` from page.tsx (lines 64-112): convert stock
and kerf to mm, build the working list with effective lengths
`convertToMm(length) + kerfWidthMm`, sort it descending (stable), run the
allocation loops, and convert the resulting plans back to the display
unit. -/
def calculateOptimalCutPlan (numExtrusions : ℕ) (extrusionLength : ℚ)
    (cuts : List Cut) (unit : Unit) (kerfWidth : ℚ) (kerfUnit : Unit) :
    List CutPlan :=
  let stockLength := convertToMm unit extrusionLength
  let kerfWidthMm := getKerfInMm kerfWidth kerfUnit
  let convertedCuts :=
    cuts.map fun cut => Cut.mk (convertToMm unit cut.length + kerfWidthMm) cut.quantity
  let sortedCuts := convertedCuts.mergeSort cutLE
  let plans := allocate stockLength kerfWidthMm numExtrusions sortedCuts
  plans.map fun plan =>
    CutPlan.mk (plan.cuts.map (convertFromMm unit)) (convertFromMm unit plan.waste)

end Page

namespace Component

/-- The inner `while` loop of the component file's `calculateOptimalCutPlan`
(lines 38-42): push `cut.length`, subtract it, decrement the quantity. -/
def placeOne (remainingLength cutLength : ℚ) : ℕ → List ℚ × ℚ × ℕ
  | 0 => ([], remainingLength, 0)
  | q + 1 =>
    if cutLength ≤ remainingLength then
      let r := placeOne (remainingLength - cutLength) cutLength q
      (cutLength :: r.1, r.2.1, r.2.2)
    else
      ([], remainingLength, q + 1)

/-- The `for (const cut of remainingCuts)` loop of the component file
(lines 37-43). -/
def fillBar : ℚ → List Cut → List ℚ × ℚ × List Cut
  | remainingLength, [] => ([], remainingLength, [])
  | remainingLength, cut :: rest =>
    let p := placeOne remainingLength cut.length cut.quantity
    let f := fillBar p.2.1 rest
    (p.1 ++ f.1, f.2.1, ⟨cut.length, p.2.2⟩ :: f.2.2)

/-- The two `while` loops of the component file (lines 33-59). -/
def allocate (extrusionLength : ℚ) : ℕ → List Cut → List CutPlan
  | 0, _ => []
  | n + 1, remainingCuts =>
    if remainingCuts.any (fun cut => decide (0 < cut.quantity)) then
      let b := fillBar extrusionLength remainingCuts
      ⟨b.1, b.2.1⟩ :: allocate extrusionLength n b.2.2
    else
      List.replicate (n + 1) ⟨[], extrusionLength⟩

/-- `calculateOptimalCutPlan` from
src/components/aluminum-extrusion-calculator.tsx (lines 24-62): copy the
requests, sort descending by length (stable), run the allocation loops.
No units, no kerf. -/
def calculateOptimalCutPlan (numExtrusions : ℕ) (extrusionLength : ℚ)
    (cuts : List Cut) : List CutPlan :=
  let sortedCuts := (cuts.map fun cut => Cut.mk cut.length cut.quantity).mergeSort cutLE
  allocate extrusionLength numExtrusions sortedCuts

end Component

/-! ### Helper definitions used by the statements -/

/-- All placed cuts of a plan sequence, in order. -/
def allCuts (plans : List CutPlan) : List ℚ :=
  (plans.map CutPlan.cuts).flatten

/-- Total quantity still available in a working list for entries whose
pushed value (`length - kerf`) equals `v`. -/
def avail (kerfWidthMm v : ℚ) (work : List Cut) : ℕ :=
  ((work.filter fun cut => decide (cut.length - kerfWidthMm = v)).map Cut.quantity).sum

theorem unitConversions_pos (u : Unit) : 0 < unitConversions u := by
  cases u <;> norm_num [unitConversions]

theorem unitConversions_ne_zero (u : Unit) : unitConversions u ≠ 0 :=
  ne_of_gt (unitConversions_pos u)

@[simp] theorem allCuts_nil : allCuts [] = [] := rfl

@[simp] theorem allCuts_cons (p : CutPlan) (ps : List CutPlan) :
    allCuts (p :: ps) = p.cuts ++ allCuts ps := rfl

theorem allCuts_replicate_empty (n : ℕ) (w : ℚ) :
    allCuts (List.replicate n ⟨[], w⟩) = [] := by
  induction n with
  | zero => rfl
  | succ n ih => simpa [List.replicate_succ] using ih

theorem avail_cons (k v : ℚ) (c : Cut) (rest : List Cut) :
    avail k v (c :: rest) =
      (if c.length - k = v then c.quantity else 0) + avail k v rest := by
  simp only [avail, List.filter_cons]
  split <;> simp_all [avail]

/-! ### Lemmas about `Page.placeOne` -/

namespace Page

theorem placeOne_succ_of_le (k rem len : ℚ) (q : ℕ) (h : len ≤ rem) :
    placeOne k rem len (q + 1) =
      ((len - k) :: (placeOne k (rem - len) len q).1,
        (placeOne k (rem - len) len q).2.1,
        (placeOne k (rem - len) len q).2.2) := by
  simp [placeOne, h]

theorem placeOne_succ_of_lt (k rem len : ℚ) (q : ℕ) (h : rem < len) :
    placeOne k rem len (q + 1) = ([], rem, q + 1) := by
  simp [placeOne, not_le.mpr h]

theorem placeOne_conservation (k len : ℚ) :
    ∀ (q : ℕ) (rem : ℚ),
      (placeOne k rem len q).1.sum + k * (placeOne k rem len q).1.length +
        (placeOne k rem len q).2.1 = rem
  | 0, rem => by simp [placeOne]
  | q + 1, rem => by
    by_cases h : len ≤ rem
    · have ih := placeOne_conservation k len q (rem - len)
      rw [placeOne_succ_of_le k rem len q h]
      simp only [List.sum_cons, List.length_cons]
      push_cast
      rw [mul_add, mul_one]
      linarith
    · rw [placeOne_succ_of_lt k rem len q (not_le.mp h)]
      simp

theorem placeOne_waste_nonneg (k len : ℚ) :
    ∀ (q : ℕ) (rem : ℚ), 0 ≤ rem → 0 ≤ (placeOne k rem len q).2.1
  | 0, _, h => h
  | q + 1, rem, h => by
    by_cases hle : len ≤ rem
    · rw [placeOne_succ_of_le k rem len q hle]
      exact placeOne_waste_nonneg k len q (rem - len) (by linarith)
    · rw [placeOne_succ_of_lt k rem len q (not_le.mp hle)]
      exact h

theorem placeOne_remaining_le (k len : ℚ) (hlen : 0 ≤ len) :
    ∀ (q : ℕ) (rem : ℚ), (placeOne k rem len q).2.1 ≤ rem
  | 0, _ => le_refl _
  | q + 1, rem => by
    by_cases hle : len ≤ rem
    · rw [placeOne_succ_of_le k rem len q hle]
      calc (placeOne k (rem - len) len q).2.1 ≤ rem - len :=
            placeOne_remaining_le k len hlen q (rem - len)
        _ ≤ rem := by linarith
    · rw [placeOne_succ_of_lt k rem len q (not_le.mp hle)]

theorem placeOne_of_lt (k len : ℚ) (h : rem < len) :
    ∀ q : ℕ, placeOne k rem len q = ([], rem, q)
  | 0 => rfl
  | q + 1 => placeOne_succ_of_lt k rem len q h

theorem placeOne_mem (k len : ℚ) :
    ∀ (q : ℕ) (rem : ℚ), ∀ x ∈ (placeOne k rem len q).1, x = len - k
  | 0, _ => by simp [placeOne]
  | q + 1, rem => by
    by_cases hle : len ≤ rem
    · rw [placeOne_succ_of_le k rem len q hle]
      intro x hx
      rcases List.mem_cons.mp hx with h | h
      · exact h
      · exact placeOne_mem k len q (rem - len) x h
    · rw [placeOne_succ_of_lt k rem len q (not_le.mp hle)]
      simp

theorem placeOne_count (k len v : ℚ) :
    ∀ (q : ℕ) (rem : ℚ),
      (placeOne k rem len q).1.count v +
          (if len - k = v then (placeOne k rem len q).2.2 else 0) =
        (if len - k = v then q else 0)
  | 0, rem => by simp [placeOne]
  | q + 1, rem => by
    by_cases hle : len ≤ rem
    · have ih := placeOne_count k len v q (rem - len)
      rw [placeOne_succ_of_le k rem len q hle]
      rcases eq_or_ne (len - k) v with hv | hv
      · simp only [if_pos hv] at ih ⊢
        simp only [List.count_cons, beq_iff_eq, if_pos hv]
        omega
      · simp only [if_neg hv] at ih ⊢
        simp only [List.count_cons, beq_iff_eq, if_neg hv]
        omega
    · rw [placeOne_succ_of_lt k rem len q (not_le.mp hle)]
      simp

theorem placeOne_empty (k len : ℚ) :
    ∀ (q : ℕ) (rem : ℚ), (placeOne k rem len q).1 = [] →
      placeOne k rem len q = ([], rem, q)
  | 0, rem, _ => rfl
  | q + 1, rem, h => by
    by_cases hle : len ≤ rem
    · rw [placeOne_succ_of_le k rem len q hle] at h
      exact absurd h (List.cons_ne_nil _ _)
    · exact placeOne_succ_of_lt k rem len q (not_le.mp hle)

end Page

/-! ### Lemmas about `Page.fillBar` -/

namespace Page

theorem fillBar_cons (k rem : ℚ) (cut : Cut) (rest : List Cut) :
    fillBar k rem (cut :: rest) =
      ((placeOne k rem cut.length cut.quantity).1 ++
          (fillBar k (placeOne k rem cut.length cut.quantity).2.1 rest).1,
        (fillBar k (placeOne k rem cut.length cut.quantity).2.1 rest).2.1,
        ⟨cut.length, (placeOne k rem cut.length cut.quantity).2.2⟩ ::
          (fillBar k (placeOne k rem cut.length cut.quantity).2.1 rest).2.2) :=
  rfl

theorem fillBar_conservation (k : ℚ) :
    ∀ (work : List Cut) (rem : ℚ),
      (fillBar k rem work).1.sum + k * (fillBar k rem work).1.length +
        (fillBar k rem work).2.1 = rem
  | [], rem => by simp [fillBar]
  | cut :: rest, rem => by
    have h1 := placeOne_conservation k cut.length cut.quantity rem
    have h2 := fillBar_conservation k rest (placeOne k rem cut.length cut.quantity).2.1
    rw [fillBar_cons]
    simp only [List.sum_append, List.length_append]
    push_cast
    rw [mul_add]
    linarith

theorem fillBar_waste_nonneg (k : ℚ) :
    ∀ (work : List Cut) (rem : ℚ), 0 ≤ rem → 0 ≤ (fillBar k rem work).2.1
  | [], _, h => h
  | cut :: rest, rem, h => by
    rw [fillBar_cons]
    exact fillBar_waste_nonneg k rest _
      (placeOne_waste_nonneg k cut.length cut.quantity rem h)

theorem fillBar_remaining_le (k : ℚ) :
    ∀ (work : List Cut), (∀ c ∈ work, 0 ≤ c.length) →
      ∀ rem : ℚ, (fillBar k rem work).2.1 ≤ rem
  | [], _, _ => le_refl _
  | cut :: rest, hlen, rem => by
    rw [fillBar_cons]
    calc (fillBar k (placeOne k rem cut.length cut.quantity).2.1 rest).2.1
        ≤ (placeOne k rem cut.length cut.quantity).2.1 :=
          fillBar_remaining_le k rest (fun c hc => hlen c (List.mem_cons_of_mem _ hc)) _
      _ ≤ rem :=
          placeOne_remaining_le k cut.length (hlen cut (List.mem_cons_self _ _))
            cut.quantity rem

theorem fillBar_lengths (k : ℚ) :
    ∀ (work : List Cut) (rem : ℚ),
      ((fillBar k rem work).2.2).map Cut.length = work.map Cut.length
  | [], _ => rfl
  | cut :: rest, rem => by
    rw [fillBar_cons]
    simp [fillBar_lengths k rest]

theorem fillBar_count (k v : ℚ) :
    ∀ (work : List Cut) (rem : ℚ),
      (fillBar k rem work).1.count v + avail k v (fillBar k rem work).2.2 =
        avail k v work
  | [], rem => by simp [fillBar, avail]
  | cut :: rest, rem => by
    have h1 := placeOne_count k cut.length v cut.quantity rem
    have h2 := fillBar_count k v rest (placeOne k rem cut.length cut.quantity).2.1
    rw [fillBar_cons, List.count_append, avail_cons, avail_cons]
    simp only at h1 h2 ⊢
    omega

theorem fillBar_count_zero (k v : ℚ) :
    ∀ (work : List Cut) (rem : ℚ), (∀ c ∈ work, 0 ≤ c.length) →
      (∀ c ∈ work, c.length - k = v → rem < c.length) →
      (fillBar k rem work).1.count v = 0
  | [], _, _, _ => rfl
  | cut :: rest, rem, hlen, hbig => by
    rw [fillBar_cons, List.count_append]
    have hrest : ∀ c ∈ rest, 0 ≤ c.length :=
      fun c hc => hlen c (List.mem_cons_of_mem _ hc)
    have hrem : (placeOne k rem cut.length cut.quantity).2.1 ≤ rem :=
      placeOne_remaining_le k cut.length (hlen cut (List.mem_cons_self _ _))
        cut.quantity rem
    have htail : (fillBar k (placeOne k rem cut.length cut.quantity).2.1 rest).1.count v = 0 :=
      fillBar_count_zero k v rest _ hrest
        (fun c hc hcv =>
          lt_of_le_of_lt hrem (hbig c (List.mem_cons_of_mem _ hc) hcv))
    have hhead : (placeOne k rem cut.length cut.quantity).1.count v = 0 := by
      rcases eq_or_ne (cut.length - k) v with hv | hv
      · have hlt : rem < cut.length := hbig cut (List.mem_cons_self _ _) hv
        rw [placeOne_of_lt k cut.length hlt]
        rfl
      · rw [List.count_eq_zero]
        intro hmem
        exact hv (placeOne_mem k cut.length cut.quantity rem v hmem).symm
    omega

theorem fillBar_empty (k : ℚ) :
    ∀ (work : List Cut) (rem : ℚ), (fillBar k rem work).1 = [] →
      fillBar k rem work = ([], rem, work)
  | [], _, _ => rfl
  | cut :: rest, rem, h => by
    rw [fillBar_cons] at h ⊢
    have hsplit := List.append_eq_nil.mp h
    have hp := placeOne_empty k cut.length cut.quantity rem hsplit.1
    rw [hp] at hsplit ⊢
    have hf := fillBar_empty k rest rem hsplit.2
    rw [hf]
    rfl

end Page

/-! ### Lemmas about `Page.allocate` -/

namespace Page

theorem allocate_succ_pos (s k : ℚ) (n : ℕ) (work : List Cut)
    (h : work.any (fun cut => decide (0 < cut.quantity)) = true) :
    allocate s k (n + 1) work =
      ⟨(fillBar k s work).1, (fillBar k s work).2.1⟩ ::
        allocate s k n (fillBar k s work).2.2 := by
  simp [allocate, h]

theorem allocate_succ_neg (s k : ℚ) (n : ℕ) (work : List Cut)
    (h : ¬ work.any (fun cut => decide (0 < cut.quantity)) = true) :
    allocate s k (n + 1) work = List.replicate (n + 1) ⟨[], s⟩ := by
  simp only [allocate]
  rw [if_neg h]

theorem length_allocate (s k : ℚ) :
    ∀ (n : ℕ) (work : List Cut), (allocate s k n work).length = n
  | 0, _ => rfl
  | n + 1, work => by
    by_cases h : work.any (fun cut => decide (0 < cut.quantity)) = true
    · rw [allocate_succ_pos s k n work h]
      simp [length_allocate s k n]
    · rw [allocate_succ_neg s k n work h]
      simp

theorem allocate_mem_conservation (s k : ℚ) :
    ∀ (n : ℕ) (work : List Cut), ∀ p ∈ allocate s k n work,
      p.cuts.sum + k * p.cuts.length + p.waste = s
  | 0, _ => by simp [allocate]
  | n + 1, work => by
    intro p hp
    by_cases h : work.any (fun cut => decide (0 < cut.quantity)) = true
    · rw [allocate_succ_pos s k n work h] at hp
      rcases List.mem_cons.mp hp with hp | hp
      · subst hp
        exact fillBar_conservation k work s
      · exact allocate_mem_conservation s k n _ p hp
    · rw [allocate_succ_neg s k n work h] at hp
      rw [List.eq_of_mem_replicate hp]
      simp

theorem allocate_mem_waste_nonneg (s k : ℚ) (hs : 0 ≤ s) :
    ∀ (n : ℕ) (work : List Cut), ∀ p ∈ allocate s k n work, 0 ≤ p.waste
  | 0, _ => by simp [allocate]
  | n + 1, work => by
    intro p hp
    by_cases h : work.any (fun cut => decide (0 < cut.quantity)) = true
    · rw [allocate_succ_pos s k n work h] at hp
      rcases List.mem_cons.mp hp with hp | hp
      · subst hp
        exact fillBar_waste_nonneg k work s hs
      · exact allocate_mem_waste_nonneg s k hs n _ p hp
    · rw [allocate_succ_neg s k n work h] at hp
      rw [List.eq_of_mem_replicate hp]
      exact hs

theorem allocate_count_le (s k v : ℚ) :
    ∀ (n : ℕ) (work : List Cut),
      (allCuts (allocate s k n work)).count v ≤ avail k v work
  | 0, _ => by simp [allocate, allCuts]
  | n + 1, work => by
    by_cases h : work.any (fun cut => decide (0 < cut.quantity)) = true
    · rw [allocate_succ_pos s k n work h]
      have h1 := fillBar_count k v work s
      have h2 := allocate_count_le s k v n (fillBar k s work).2.2
      rw [allCuts_cons, List.count_append]
      simp only at h1 h2 ⊢
      omega
    · rw [allocate_succ_neg s k n work h, allCuts_replicate_empty]
      simp

theorem allocate_count_zero (s k v : ℚ) :
    ∀ (n : ℕ) (work : List Cut), (∀ c ∈ work, 0 ≤ c.length) →
      (∀ c ∈ work, c.length - k = v → s < c.length) →
      (allCuts (allocate s k n work)).count v = 0
  | 0, _, _, _ => rfl
  | n + 1, work, hlen, hbig => by
    by_cases h : work.any (fun cut => decide (0 < cut.quantity)) = true
    · rw [allocate_succ_pos s k n work h, allCuts_cons, List.count_append]
      have hbar := fillBar_count_zero k v work s hlen hbig
      have hmap := fillBar_lengths k work s
      have htrans : ∀ c ∈ (fillBar k s work).2.2, ∃ d ∈ work, d.length = c.length := by
        intro c hc
        have : c.length ∈ work.map Cut.length := by
          rw [← hmap]
          exact List.mem_map_of_mem _ hc
        obtain ⟨d, hd, he⟩ := List.mem_map.mp this
        exact ⟨d, hd, he⟩
      have hrest := allocate_count_zero s k v n (fillBar k s work).2.2
        (fun c hc => by
          obtain ⟨d, hd, he⟩ := htrans c hc
          rw [← he]
          exact hlen d hd)
        (fun c hc hcv => by
          obtain ⟨d, hd, he⟩ := htrans c hc
          rw [← he] at hcv ⊢
          exact hbig d hd hcv)
      simp only at hbar hrest ⊢
      omega
    · rw [allocate_succ_neg s k n work h, allCuts_replicate_empty]
      rfl

theorem allocate_all_empty (s k : ℚ) (work : List Cut)
    (h : fillBar k s work = ([], s, work)) :
    ∀ n : ℕ, allocate s k n work = List.replicate n ⟨[], s⟩
  | 0 => rfl
  | n + 1 => by
    by_cases hq : work.any (fun cut => decide (0 < cut.quantity)) = true
    · rw [allocate_succ_pos s k n work hq, h, allocate_all_empty s k work h n]
      rfl
    · exact allocate_succ_neg s k n work hq

theorem allocate_empty_suffix (s k : ℚ) :
    ∀ (n : ℕ) (work : List Cut) (i j : ℕ)
      (hi : i < (allocate s k n work).length) (hj : j < (allocate s k n work).length),
      i < j → ((allocate s k n work).get ⟨i, hi⟩).cuts = [] →
      ((allocate s k n work).get ⟨j, hj⟩).cuts = []
  | 0, work, i, j, hi, hj, hij, hcut => by
    rw [length_allocate] at hi
    exact absurd hi (Nat.not_lt_zero i)
  | n + 1, work, i, j, hi, hj, hij, hcut => by
    by_cases h : work.any (fun cut => decide (0 < cut.quantity)) = true
    · revert hi hj hcut
      rw [allocate_succ_pos s k n work h]
      intro hi hj hcut
      match i, j with
      | 0, j + 1 =>
        have hbar : (fillBar k s work).1 = [] := by
          simpa using hcut
        have hfb := fillBar_empty k work s hbar
        have hall := allocate_all_empty s k work hfb n
        rw [List.get_cons_succ]
        have hwork : (fillBar k s work).2.2 = work := by rw [hfb]
        have hconst : ∀ p ∈ allocate s k n (fillBar k s work).2.2, p.cuts = [] := by
          rw [hwork, hall]
          intro p hp
          rw [List.eq_of_mem_replicate hp]
        exact hconst _ (List.get_mem _ _ _)
      | i + 1, j + 1 =>
        rw [List.get_cons_succ] at hcut ⊢
        exact allocate_empty_suffix s k n _ i j _ _ (Nat.lt_of_succ_lt_succ hij) hcut
    · revert hi hj hcut
      rw [allocate_succ_neg s k n work h]
      intro hi hj hcut
      rw [List.eq_of_mem_replicate (List.get_mem _ _ _)]

end Page

/-! ### The kerf-zero reduction: `Page` at kerf 0 agrees with `Component` -/

theorem placeOne_zero_kerf (len : ℚ) :
    ∀ (q : ℕ) (rem : ℚ), Page.placeOne 0 rem len q = Component.placeOne rem len q
  | 0, _ => rfl
  | q + 1, rem => by
    by_cases h : len ≤ rem
    · simp only [Page.placeOne, Component.placeOne, if_pos h,
        placeOne_zero_kerf len q (rem - len), sub_zero]
    · simp only [Page.placeOne, Component.placeOne, if_neg h]

theorem fillBar_zero_kerf :
    ∀ (work : List Cut) (rem : ℚ), Page.fillBar 0 rem work = Component.fillBar rem work
  | [], _ => rfl
  | cut :: rest, rem => by
    simp only [Page.fillBar, Component.fillBar,
      placeOne_zero_kerf cut.length cut.quantity rem,
      fillBar_zero_kerf rest (Component.placeOne rem cut.length cut.quantity).2.1]

theorem allocate_zero_kerf (s : ℚ) :
    ∀ (n : ℕ) (work : List Cut), Page.allocate s 0 n work = Component.allocate s n work
  | 0, _ => rfl
  | n + 1, work => by
    by_cases h : work.any (fun cut => decide (0 < cut.quantity)) = true
    · simp only [Page.allocate, Component.allocate, if_pos h, fillBar_zero_kerf work s,
        allocate_zero_kerf s n (Component.fillBar s work).2.2]
    · simp only [Page.allocate, Component.allocate, if_neg h]

/-! ### Arithmetic transfer helpers for the display-unit conversion -/

theorem list_sum_map_div (l : List ℚ) (f : ℚ) :
    (l.map fun x => x / f).sum = l.sum / f := by
  induction l with
  | nil => simp
  | cons x xs ih => simp [ih, add_div]

theorem div_injective {f : ℚ} (hf : f ≠ 0) :
    Function.Injective fun x : ℚ => x / f := by
  intro a b hab
  have := congrArg (fun y => y * f) hab
  simpa [div_mul_cancel₀, hf] using this

theorem count_map_div (l : List ℚ) {f : ℚ} (hf : f ≠ 0) (v : ℚ) :
    (l.map fun x => x / f).count (v / f) = l.count v :=
  List.count_map_of_injective l _ (div_injective hf) v

/-! ### Transfer lemmas between canonical-unit plans and display-unit plans -/

theorem round_trip_aux (u : Unit) (x : ℚ) :
    Page.convertFromMm u (Page.convertToMm u x) = x := by
  rw [Page.convertFromMm, Page.convertToMm,
    mul_div_cancel_right₀ _ (unitConversions_ne_zero u)]

theorem allCuts_map_plans (g : ℚ → ℚ) (w : CutPlan → ℚ) (l : List CutPlan) :
    allCuts (l.map fun p => CutPlan.mk (p.cuts.map g) (w p)) = (allCuts l).map g := by
  induction l with
  | nil => rfl
  | cons p ps ih => simp [allCuts_cons, ih]

theorem sum_map_convertFromMm (u : Unit) (l : List ℚ) :
    (l.map (Page.convertFromMm u)).sum = l.sum / unitConversions u := by
  induction l with
  | nil => simp
  | cons x xs ih => simp [Page.convertFromMm, ih, add_div]

theorem count_map_convertFromMm (u : Unit) (l : List ℚ) (v : ℚ) :
    (l.map (Page.convertFromMm u)).count (Page.convertFromMm u v) = l.count v :=
  List.count_map_of_injective l _
    (fun a b hab => by
      have hf := unitConversions_ne_zero u
      simp only [Page.convertFromMm] at hab
      exact div_injective hf hab) v

theorem length_calculateOptimalCutPlan (numExtrusions : ℕ) (extrusionLength : ℚ)
    (cuts : List Cut) (unit : Unit) (kerfWidth : ℚ) (kerfUnit : Unit) :
    (Page.calculateOptimalCutPlan numExtrusions extrusionLength cuts unit
      kerfWidth kerfUnit).length = numExtrusions := by
  simp only [Page.calculateOptimalCutPlan]
  rw [List.length_map, Page.length_allocate]

/-! ### Claim theorems -/

/-- C1: for every plan returned by `calculateOptimalCutPlan`, the sum of the
plan's placed cut lengths plus the kerf width (in the display unit) times
the number of placed cuts plus the plan's waste equals the stock length,
exactly over exact rational arithmetic, under the preconditions
`stock.length > 0`, `kerf.width ≥ 0`, every request length `> 0`. -/
theorem conservation_per_plan (numExtrusions : ℕ) (extrusionLength : ℚ)
    (cuts : List Cut) (unit : Unit) (kerfWidth : ℚ) (kerfUnit : Unit)
    (hstock : 0 < extrusionLength) (hkerf : 0 ≤ kerfWidth)
    (hcuts : ∀ c ∈ cuts, 0 < c.length) :
    ∀ p ∈ Page.calculateOptimalCutPlan numExtrusions extrusionLength cuts unit
        kerfWidth kerfUnit,
      p.cuts.sum +
          Page.convertFromMm unit (Page.getKerfInMm kerfWidth kerfUnit) * p.cuts.length +
          p.waste = extrusionLength := by
  intro p hp
  simp only [Page.calculateOptimalCutPlan, List.mem_map] at hp
  obtain ⟨q, hq, rfl⟩ := hp
  have hcons := Page.allocate_mem_conservation (Page.convertToMm unit extrusionLength)
    (Page.getKerfInMm kerfWidth kerfUnit) numExtrusions _ q hq
  have hf : unitConversions unit ≠ 0 := unitConversions_ne_zero unit
  simp only [Page.convertFromMm, Page.convertToMm] at hcons ⊢
  rw [sum_map_convertFromMm, List.length_map]
  field_simp
  linarith

/-- C1 witness: the conservation identity instantiated at stock 100 mm,
kerf 1 mm, one request of length 30 and quantity 2; the first returned
plan is `⟨[30, 30], 38⟩` and indeed `60 + 1*2 + 38 = 100`. -/
theorem conservation_per_plan_witness :
    (0:ℚ) < 100 ∧
      (CutPlan.mk [30, 30] 38).cuts.sum +
          Page.convertFromMm Unit.mm (Page.getKerfInMm 1 Unit.mm) *
            (CutPlan.mk [30, 30] 38).cuts.length +
          (CutPlan.mk [30, 30] 38).waste = 100 :=
  ⟨by norm_num,
    conservation_per_plan 2 100 [⟨30, 2⟩] Unit.mm 1 Unit.mm (by norm_num) (by norm_num)
      (by decide) (CutPlan.mk [30, 30] 38)
      (by
        simp only [Page.calculateOptimalCutPlan, List.map_cons, List.map_nil,
          List.mergeSort_singleton]
        decide)⟩

/-- C2: the computation always returns exactly `numExtrusions` plans,
whatever the demand; and every plan without placed cuts is an empty plan
whose waste is the whole stock length. -/
theorem bar_count_invariant (numExtrusions : ℕ) (extrusionLength : ℚ)
    (cuts : List Cut) (unit : Unit) (kerfWidth : ℚ) (kerfUnit : Unit)
    (hmax : 1 ≤ numExtrusions) :
    (Page.calculateOptimalCutPlan numExtrusions extrusionLength cuts unit
        kerfWidth kerfUnit).length = numExtrusions ∧
      ∀ p ∈ Page.calculateOptimalCutPlan numExtrusions extrusionLength cuts unit
          kerfWidth kerfUnit, p.cuts = [] → p.waste = extrusionLength := by
  refine ⟨length_calculateOptimalCutPlan _ _ _ _ _ _, ?_⟩
  intro p hp hc
  simp only [Page.calculateOptimalCutPlan, List.mem_map] at hp
  obtain ⟨q, hq, rfl⟩ := hp
  simp only [List.map_eq_nil_iff] at hc
  have hcons := Page.allocate_mem_conservation (Page.convertToMm unit extrusionLength)
    (Page.getKerfInMm kerfWidth kerfUnit) numExtrusions _ q hq
  rw [hc] at hcons
  simp only [List.sum_nil, List.length_nil] at hcons
  have hwaste : q.waste = Page.convertToMm unit extrusionLength := by
    push_cast at hcons
    linarith
  simp only [hwaste]
  exact round_trip_aux unit extrusionLength

/-- C2 witness: three bars are reported even though a single request of
quantity one is placed on the first bar. -/
theorem bar_count_invariant_witness :
    1 ≤ 3 ∧
      (Page.calculateOptimalCutPlan 3 50 [⟨20, 1⟩] Unit.cm 0 Unit.mm).length = 3 :=
  ⟨by norm_num, (bar_count_invariant 3 50 [⟨20, 1⟩] Unit.cm 0 Unit.mm (by norm_num)).1⟩

/-- C5: converting to canonical millimetres and back is the identity for
every supported unit and every non-negative rational value. -/
theorem unit_round_trip (u : Unit) (x : ℚ) (hx : 0 ≤ x) :
    Page.convertFromMm u (Page.convertToMm u x) = x :=
  round_trip_aux u x

/-- C5 witness: the round trip at 7 inches. -/
theorem unit_round_trip_witness :
    (0:ℚ) ≤ 7 ∧ Page.convertFromMm Unit.inch (Page.convertToMm Unit.inch 7) = 7 :=
  ⟨by norm_num, unit_round_trip Unit.inch 7 (by norm_num)⟩

/-- C9: under the preconditions, every returned plan's waste is
non-negative. -/
theorem waste_nonneg (numExtrusions : ℕ) (extrusionLength : ℚ)
    (cuts : List Cut) (unit : Unit) (kerfWidth : ℚ) (kerfUnit : Unit)
    (hstock : 0 < extrusionLength) (hkerf : 0 ≤ kerfWidth)
    (hcuts : ∀ c ∈ cuts, 0 < c.length) :
    ∀ p ∈ Page.calculateOptimalCutPlan numExtrusions extrusionLength cuts unit
        kerfWidth kerfUnit, 0 ≤ p.waste := by
  intro p hp
  simp only [Page.calculateOptimalCutPlan, List.mem_map] at hp
  obtain ⟨q, hq, rfl⟩ := hp
  have hfpos := unitConversions_pos unit
  have hs : (0:ℚ) ≤ Page.convertToMm unit extrusionLength := by
    rw [Page.convertToMm]
    exact mul_nonneg (le_of_lt hstock) (le_of_lt hfpos)
  have hw := Page.allocate_mem_waste_nonneg (Page.convertToMm unit extrusionLength)
    (Page.getKerfInMm kerfWidth kerfUnit) hs numExtrusions _ q hq
  simp only [Page.convertFromMm]
  exact div_nonneg hw (le_of_lt hfpos)

/-- C9 witness: with stock 10 mm and one request of length 4, the first
plan's waste is 6 and indeed non-negative. -/
theorem waste_nonneg_witness :
    (0:ℚ) < 10 ∧ (0:ℚ) ≤ (CutPlan.mk [4] 6).waste :=
  ⟨by norm_num,
    waste_nonneg 1 10 [⟨4, 1⟩] Unit.mm 0 Unit.mm (by norm_num) (by norm_num)
      (by decide) (CutPlan.mk [4] 6)
      (by
        simp only [Page.calculateOptimalCutPlan, List.map_cons, List.map_nil,
          List.mergeSort_singleton]
        decide)⟩

/-- C3: the concrete example scenario: stock 2000 mm, 10 bars, kerf 3.2 mm,
six pieces of 1500 mm requested; bars 1-6 each place one 1500 cut with
waste 496.8, bars 7-10 are empty with waste 2000. -/
theorem example_scenario :
    Page.calculateOptimalCutPlan 10 2000 [⟨1500, 6⟩] Unit.mm (3.2 : ℚ) Unit.mm =
      List.replicate 6 ⟨[1500], 496.8⟩ ++ List.replicate 4 ⟨[], 2000⟩ := by
  simp only [Page.calculateOptimalCutPlan, List.map_cons, List.map_nil,
    List.mergeSort_singleton]
  decide

/-! ### Counting helpers shared by C4 and C6 -/

theorem avail_perm (k v : ℚ) {l₁ l₂ : List Cut} (h : l₁.Perm l₂) :
    avail k v l₁ = avail k v l₂ :=
  List.Perm.sum_eq (List.Perm.map _ (List.Perm.filter _ h))

theorem avail_converted (u : Unit) (k reqLen : ℚ) (cuts : List Cut) :
    avail k (Page.convertToMm u reqLen)
        (cuts.map fun c => Cut.mk (Page.convertToMm u c.length + k) c.quantity) =
      ((cuts.filter fun c => decide (c.length = reqLen)).map Cut.quantity).sum := by
  induction cuts with
  | nil => rfl
  | cons c rest ih =>
    rw [List.map_cons, avail_cons, List.filter_cons]
    have hcond : ((Cut.mk (Page.convertToMm u c.length + k) c.quantity).length - k =
        Page.convertToMm u reqLen) ↔ c.length = reqLen := by
      simp only [Page.convertToMm, add_sub_cancel_right]
      constructor
      · intro h
        exact mul_right_cancel₀ (unitConversions_ne_zero u) h
      · intro h
        rw [h]
    by_cases hc : c.length = reqLen
    · rw [if_pos (hcond.mpr hc), if_pos (by simpa using hc)]
      simp only [List.map_cons, List.sum_cons]
      omega
    · rw [if_neg (fun h => hc (hcond.mp h)), if_neg (by simpa using hc)]
      rw [zero_add]
      exact ih

theorem count_allCuts_calculate (numExtrusions : ℕ) (extrusionLength : ℚ)
    (cuts : List Cut) (unit : Unit) (kerfWidth : ℚ) (kerfUnit : Unit) (reqLen : ℚ) :
    (allCuts (Page.calculateOptimalCutPlan numExtrusions extrusionLength cuts unit
        kerfWidth kerfUnit)).count reqLen =
      (allCuts (Page.allocate (Page.convertToMm unit extrusionLength)
          (Page.getKerfInMm kerfWidth kerfUnit) numExtrusions
          ((cuts.map fun c =>
              Cut.mk (Page.convertToMm unit c.length + Page.getKerfInMm kerfWidth kerfUnit)
                c.quantity).mergeSort cutLE))).count
        (Page.convertToMm unit reqLen) := by
  have h1 :
      allCuts (Page.calculateOptimalCutPlan numExtrusions extrusionLength cuts unit
          kerfWidth kerfUnit) =
        (allCuts (Page.allocate (Page.convertToMm unit extrusionLength)
            (Page.getKerfInMm kerfWidth kerfUnit) numExtrusions
            ((cuts.map fun c =>
                Cut.mk (Page.convertToMm unit c.length + Page.getKerfInMm kerfWidth kerfUnit)
                  c.quantity).mergeSort cutLE))).map (Page.convertFromMm unit) := by
    simp only [Page.calculateOptimalCutPlan]
    exact allCuts_map_plans _ _ _
  conv_lhs =>
    rw [h1, show reqLen = Page.convertFromMm unit (Page.convertToMm unit reqLen) from
      (round_trip_aux unit reqLen).symm]
  exact count_map_convertFromMm unit _ _

/-- C4: a request whose effective length (canonical length plus kerf)
exceeds the stock length is never placed — the output contains no cut of
that length — and the computation still returns a complete sequence of
`numExtrusions` plans. -/
theorem oversize_request_never_placed (numExtrusions : ℕ) (extrusionLength : ℚ)
    (cuts : List Cut) (unit : Unit) (kerfWidth : ℚ) (kerfUnit : Unit) (reqLen : ℚ)
    (hstock : 0 < extrusionLength) (hkerf : 0 ≤ kerfWidth)
    (hcuts : ∀ c ∈ cuts, 0 < c.length)
    (hbig : Page.convertToMm unit extrusionLength <
      Page.convertToMm unit reqLen + Page.getKerfInMm kerfWidth kerfUnit) :
    (allCuts (Page.calculateOptimalCutPlan numExtrusions extrusionLength cuts unit
        kerfWidth kerfUnit)).count reqLen = 0 ∧
      (Page.calculateOptimalCutPlan numExtrusions extrusionLength cuts unit
        kerfWidth kerfUnit).length = numExtrusions := by
  refine ⟨?_, length_calculateOptimalCutPlan _ _ _ _ _ _⟩
  rw [count_allCuts_calculate]
  apply Page.allocate_count_zero
  · intro c hc
    rw [List.mem_mergeSort] at hc
    obtain ⟨d, hd, rfl⟩ := List.mem_map.mp hc
    have h1 : 0 < Page.convertToMm unit d.length := by
      rw [Page.convertToMm]
      exact mul_pos (hcuts d hd) (unitConversions_pos unit)
    have h2 : 0 ≤ Page.getKerfInMm kerfWidth kerfUnit := by
      rw [Page.getKerfInMm]
      exact mul_nonneg hkerf (le_of_lt (unitConversions_pos kerfUnit))
    simp only
    linarith
  · intro c hc hcv
    rw [List.mem_mergeSort] at hc
    obtain ⟨d, hd, rfl⟩ := List.mem_map.mp hc
    simp only [add_sub_cancel_right] at hcv
    simp only
    rw [hcv]
    exact hbig

/-- C4 witness: the claim's concrete instance — stock 1000 mm, one bar,
kerf 0, a single request of length 1200: the returned sequence is exactly
`[⟨[], 1000⟩]`, no cut of length 1200 appears, and the sequence has
length one. -/
theorem oversize_request_never_placed_witness :
    Page.calculateOptimalCutPlan 1 1000 [⟨1200, 1⟩] Unit.mm 0 Unit.mm = [⟨[], 1000⟩] ∧
      ((allCuts (Page.calculateOptimalCutPlan 1 1000 [⟨1200, 1⟩] Unit.mm 0
          Unit.mm)).count 1200 = 0 ∧
        (Page.calculateOptimalCutPlan 1 1000 [⟨1200, 1⟩] Unit.mm 0 Unit.mm).length = 1) :=
  ⟨by
    simp only [Page.calculateOptimalCutPlan, List.map_cons, List.map_nil,
      List.mergeSort_singleton]
    decide,
    oversize_request_never_placed 1 1000 [⟨1200, 1⟩] Unit.mm 0 Unit.mm 1200
      (by norm_num) (by norm_num) (by decide)
      (by norm_num [Page.convertToMm, Page.getKerfInMm, unitConversions])⟩

/-- C6: for every requested length, the number of cuts of that length
placed across all plans never exceeds the total requested quantity for
that length (summed over all request entries with that length). -/
theorem monotonic_satisfaction (numExtrusions : ℕ) (extrusionLength : ℚ)
    (cuts : List Cut) (unit : Unit) (kerfWidth : ℚ) (kerfUnit : Unit)
    (hstock : 0 < extrusionLength) (hkerf : 0 ≤ kerfWidth)
    (hcuts : ∀ c ∈ cuts, 0 < c.length) (reqLen : ℚ) :
    (allCuts (Page.calculateOptimalCutPlan numExtrusions extrusionLength cuts unit
        kerfWidth kerfUnit)).count reqLen ≤
      ((cuts.filter fun c => decide (c.length = reqLen)).map Cut.quantity).sum := by
  rw [count_allCuts_calculate]
  calc (allCuts (Page.allocate (Page.convertToMm unit extrusionLength)
          (Page.getKerfInMm kerfWidth kerfUnit) numExtrusions
          ((cuts.map fun c =>
              Cut.mk (Page.convertToMm unit c.length + Page.getKerfInMm kerfWidth kerfUnit)
                c.quantity).mergeSort cutLE))).count (Page.convertToMm unit reqLen)
      ≤ avail (Page.getKerfInMm kerfWidth kerfUnit) (Page.convertToMm unit reqLen)
          ((cuts.map fun c =>
              Cut.mk (Page.convertToMm unit c.length + Page.getKerfInMm kerfWidth kerfUnit)
                c.quantity).mergeSort cutLE) :=
        Page.allocate_count_le _ _ _ _ _
    _ = avail (Page.getKerfInMm kerfWidth kerfUnit) (Page.convertToMm unit reqLen)
          (cuts.map fun c =>
            Cut.mk (Page.convertToMm unit c.length + Page.getKerfInMm kerfWidth kerfUnit)
              c.quantity) :=
        avail_perm _ _ (List.mergeSort_perm _ _)
    _ = ((cuts.filter fun c => decide (c.length = reqLen)).map Cut.quantity).sum :=
        avail_converted unit _ reqLen cuts

/-- C6 witness: with three pieces of 40 requested on two 100 mm bars,
the number of 40-cuts in the output does not exceed 3. -/
theorem monotonic_satisfaction_witness :
    (allCuts (Page.calculateOptimalCutPlan 2 100 [⟨40, 3⟩] Unit.mm 0 Unit.mm)).count 40 ≤
      (([⟨40, 3⟩] : List Cut).filter (fun c => decide (c.length = 40)) |>.map
        Cut.quantity).sum :=
  monotonic_satisfaction 2 100 [⟨40, 3⟩] Unit.mm 0 Unit.mm (by norm_num) (by norm_num)
    (by decide) 40

/-! ### C7: determinism and the fixed stable sort order -/

theorem cutLE_trans : ∀ a b c : Cut, cutLE a b → cutLE b c → cutLE a c := by
  intro a b c h1 h2
  simp only [cutLE, decide_eq_true_eq] at h1 h2 ⊢
  exact le_trans h2 h1

theorem cutLE_total : ∀ a b : Cut, cutLE a b || cutLE b a := by
  intro a b
  simp only [cutLE]
  rcases le_total a.length b.length with h | h <;> simp [h]

/-- C7: the computation is deterministic — equal inputs give equal
outputs — and the working list it allocates from is the stable descending
sort of the converted requests by effective length: it is pairwise
descending, a permutation of the converted list, and any
already-descending sublist of the input (in particular any run of ties in
original order) survives as a sublist of the sorted list. -/
theorem deterministic_and_sorted :
    (∀ (n₁ n₂ : ℕ) (L₁ L₂ : ℚ) (cuts₁ cuts₂ : List Cut) (u₁ u₂ : Unit)
        (kw₁ kw₂ : ℚ) (ku₁ ku₂ : Unit),
        n₁ = n₂ → L₁ = L₂ → cuts₁ = cuts₂ → u₁ = u₂ → kw₁ = kw₂ → ku₁ = ku₂ →
        Page.calculateOptimalCutPlan n₁ L₁ cuts₁ u₁ kw₁ ku₁ =
          Page.calculateOptimalCutPlan n₂ L₂ cuts₂ u₂ kw₂ ku₂) ∧
      (∀ (cuts : List Cut) (u : Unit) (kw : ℚ) (ku : Unit),
        ((cuts.map fun c =>
            Cut.mk (Page.convertToMm u c.length + Page.getKerfInMm kw ku)
              c.quantity).mergeSort cutLE).Pairwise fun a b => b.length ≤ a.length) ∧
      (∀ work : List Cut, (work.mergeSort cutLE).Perm work) ∧
      (∀ (work sub : List Cut), sub.Pairwise (fun a b => cutLE a b = true) →
        sub.Sublist work → sub.Sublist (work.mergeSort cutLE)) := by
  refine ⟨?_, ?_, ?_, ?_⟩
  · intro n₁ n₂ L₁ L₂ cuts₁ cuts₂ u₁ u₂ kw₁ kw₂ ku₁ ku₂ h1 h2 h3 h4 h5 h6
    subst h1; subst h2; subst h3; subst h4; subst h5; subst h6
    rfl
  · intro cuts u kw ku
    exact (List.sorted_mergeSort cutLE_trans cutLE_total _).imp
      (fun h => by simpa [cutLE] using h)
  · intro work
    exact List.mergeSort_perm work cutLE
  · intro work sub hpair hsub
    exact List.sublist_mergeSort cutLE_trans cutLE_total hpair hsub

/-- C7 witness: the determinism component applied at a concrete input with
a tie between two entries of equal length. -/
theorem deterministic_and_sorted_witness :
    Page.calculateOptimalCutPlan 2 40 [⟨10, 1⟩, ⟨10, 2⟩] Unit.mm 1 Unit.mm =
      Page.calculateOptimalCutPlan 2 40 [⟨10, 1⟩, ⟨10, 2⟩] Unit.mm 1 Unit.mm :=
  deterministic_and_sorted.1 2 2 40 40 [⟨10, 1⟩, ⟨10, 2⟩] [⟨10, 1⟩, ⟨10, 2⟩]
    Unit.mm Unit.mm 1 1 Unit.mm Unit.mm rfl rfl rfl rfl rfl rfl

/-! ### C8: zero-kerf reduction to the plain bin-packing component -/

theorem convertFromMm_mm (x : ℚ) : Page.convertFromMm Unit.mm x = x := by
  simp [Page.convertFromMm, unitConversions]

theorem map_convertFromMm_mm (l : List ℚ) :
    l.map (Page.convertFromMm Unit.mm) = l := by
  induction l with
  | nil => rfl
  | cons x xs ih => rw [List.map_cons, convertFromMm_mm, ih]

theorem map_display_mm (l : List CutPlan) :
    (l.map fun p => CutPlan.mk (p.cuts.map (Page.convertFromMm Unit.mm))
        (Page.convertFromMm Unit.mm p.waste)) = l := by
  induction l with
  | nil => rfl
  | cons p ps ih =>
    rw [List.map_cons, ih]
    congr 1
    rw [convertFromMm_mm, map_convertFromMm_mm]

/-- C8: with kerf width 0 every effective length equals the nominal
length, and on canonical-unit inputs (display unit mm) the kerf-aware
calculator of page.tsx returns exactly the same plan sequence as the
kerf-free calculator of the component file. -/
theorem zero_kerf_reduction :
    (∀ (c : Cut) (ku : Unit),
        Page.convertToMm Unit.mm c.length + Page.getKerfInMm 0 ku = c.length) ∧
      ∀ (numExtrusions : ℕ) (extrusionLength : ℚ) (cuts : List Cut) (ku : Unit),
        Page.calculateOptimalCutPlan numExtrusions extrusionLength cuts Unit.mm 0 ku =
          Component.calculateOptimalCutPlan numExtrusions extrusionLength cuts := by
  constructor
  · intro c ku
    simp [Page.convertToMm, Page.getKerfInMm, unitConversions]
  · intro n L cuts ku
    simp only [Page.calculateOptimalCutPlan, Component.calculateOptimalCutPlan,
      Page.convertToMm, Page.getKerfInMm, unitConversions, mul_one, zero_mul, add_zero]
    rw [allocate_zero_kerf, map_display_mm]

/-! ### C10: empty plans form a suffix of the returned sequence -/

/-- C10: if the plan at index `i` of the returned sequence has no cuts,
then every plan at a later index `j` also has no cuts: all bars with at
least one placed cut precede all empty bars. -/
theorem empty_plans_suffix (numExtrusions : ℕ) (extrusionLength : ℚ)
    (cuts : List Cut) (unit : Unit) (kerfWidth : ℚ) (kerfUnit : Unit) (i j : ℕ)
    (hi : i < (Page.calculateOptimalCutPlan numExtrusions extrusionLength cuts unit
      kerfWidth kerfUnit).length)
    (hj : j < (Page.calculateOptimalCutPlan numExtrusions extrusionLength cuts unit
      kerfWidth kerfUnit).length)
    (hij : i < j)
    (hempty : ((Page.calculateOptimalCutPlan numExtrusions extrusionLength cuts unit
      kerfWidth kerfUnit).get ⟨i, hi⟩).cuts = []) :
    ((Page.calculateOptimalCutPlan numExtrusions extrusionLength cuts unit
      kerfWidth kerfUnit).get ⟨j, hj⟩).cuts = [] := by
  have key := Page.allocate_empty_suffix (Page.convertToMm unit extrusionLength)
    (Page.getKerfInMm kerfWidth kerfUnit) numExtrusions
    ((cuts.map fun c =>
        Cut.mk (Page.convertToMm unit c.length + Page.getKerfInMm kerfWidth kerfUnit)
          c.quantity).mergeSort cutLE) i j
  revert hi hj hempty
  simp only [Page.calculateOptimalCutPlan]
  intro hi hj hempty
  simp only [List.get_eq_getElem, List.getElem_map] at hempty ⊢
  simp only [List.length_map] at hi hj
  simp only [List.map_eq_nil_iff] at hempty
  have h2 := key hi hj hij (by simpa [List.get_eq_getElem] using hempty)
  simp only [List.get_eq_getElem] at h2
  simp [h2]

/-- C10 witness: with three 10 mm bars and one request of length 4, the
plan at index 1 is empty and so is the plan at index 2. -/
theorem empty_plans_suffix_witness :
    1 < 2 ∧
      ((Page.calculateOptimalCutPlan 3 10 [⟨4, 1⟩] Unit.mm 0 Unit.mm).get
          ⟨2, by rw [length_calculateOptimalCutPlan]; norm_num⟩).cuts = [] :=
  ⟨by norm_num,
    empty_plans_suffix 3 10 [⟨4, 1⟩] Unit.mm 0 Unit.mm 1 2
      (by rw [length_calculateOptimalCutPlan]; norm_num)
      (by rw [length_calculateOptimalCutPlan]; norm_num)
      (by norm_num)
      (by
        have hlist : Page.calculateOptimalCutPlan 3 10 [⟨4, 1⟩] Unit.mm 0 Unit.mm =
            [⟨[4], 6⟩, ⟨[], 10⟩, ⟨[], 10⟩] := by
          simp only [Page.calculateOptimalCutPlan, List.map_cons, List.map_nil,
            List.mergeSort_singleton]
          decide
        rw [List.get_of_eq hlist]
        rfl)⟩

end CutCalc
